import Mathlib

/-!
Verification of the chain-filtering stage (filter-chains.cu) of the nvbio
short-read alignment pipeline.  The CUDA kernels and the host driver are
shallowly embedded as pure Lean functions:

* machine `uint32`/`uint64` values are modelled as `ℕ` with explicit
  `% 2^32` where the source arithmetic can wrap;
* the `float` options `mask_level` and `chain_drop_ratio` are modelled as
  exact rationals (all boundary claims concern exactly representable
  values, where binary floating point and rational arithmetic agree);
* device arrays are `List ℕ` (or `List (ℕ × ℕ)` for `uint2` spans),
  accessed with `List.getD` (out-of-range reads yield the default, which
  models the source only on in-range accesses);
* each CUDA grid launch of one-thread-per-item kernels is modelled as a
  sequential fold over the item index space (the tasks write disjoint
  slots, and the only written value is `1`, so any interleaving agrees
  with the fold).
-/

/-- The modulus of 32-bit unsigned arithmetic. -/
def U32 : ℕ := 2 ^ 32

/-- Wrapping `uint32` subtraction `a - b` for `a b < U32`. -/
def u32sub (a b : ℕ) : ℕ := (a + U32 - b) % U32

/-- One step of the coverage sweep in `chain_coverage_kernel`
(filter-chains.cu lines 62-75): state is `(range, weight)`; for the next
seed span the new coverage is added to `weight` before `range` is extended.
Additions are `uint32`, hence `% U32`. -/
def covStep (st : (ℕ × ℕ) × ℕ) (s : ℕ × ℕ) : (ℕ × ℕ) × ℕ :=
  let w' :=
    if s.1 ≥ st.1.2 then (st.2 + u32sub s.2 s.1) % U32
    else if s.2 > st.1.2 then (st.2 + (s.2 - st.1.2)) % U32
    else st.2
  ((min st.1.1 s.1, max st.1.2 s.2), w')

/-- The coverage loop of `chain_coverage_kernel` over the chain's seed
spans, starting from `range = (uint32(-1), 0)` and `weight = 0`. -/
def chainCoverage (spans : List (ℕ × ℕ)) : (ℕ × ℕ) × ℕ :=
  spans.foldl covStep ((U32 - 1, 0), 0)

/-- The seed spans of one chain: `mems[mems_index[i]].span()` for
`i ∈ [offset, offset+len)`. -/
def chainSpans (mems : List (ℕ × ℕ)) (mems_index : List ℕ) (offset len : ℕ) :
    List (ℕ × ℕ) :=
  ((mems_index.drop offset).take len).map (fun k => mems.getD k (0, 0))

/-- One thread of `chain_coverage_kernel`: outputs the chain range and the
composite key `uint64(weight) | (uint64(read) << 32)`. -/
def chain_coverage_task (read offset len : ℕ) (mems : List (ℕ × ℕ))
    (mems_index : List ℕ) : (ℕ × ℕ) × ℕ :=
  let r := chainCoverage (chainSpans mems mems_index offset len)
  (r.1, r.2 % U32 + read * U32)

/-- The union of the seed spans, as a set of positions.  This is the
specification-side object for C1 ("the length of the union of those
intervals, overlapping regions counted once"). -/
def spanUnion (spans : List (ℕ × ℕ)) : Finset ℕ :=
  spans.foldr (fun s acc => Finset.Ico s.1 s.2 ∪ acc) ∅

/-- Run-length encoding of a sequence into (value, count) pairs of its
maximal constant runs, modelling `cuda::runlength_encode`
(filter-chains.cu lines 165-170). -/
def runlength_encode : List ℕ → List (ℕ × ℕ)
  | [] => []
  | x :: xs =>
    match runlength_encode xs with
    | [] => [(x, 1)]
    | (y, c) :: rest =>
      if x = y then (x, c + 1) :: rest else (x, 1) :: (y, c) :: rest

/-- `nvbio::lower_bound` / `thrust::lower_bound` on a sorted range: the
index of the first element not below `v`, i.e. the number of elements
below `v`. -/
def lower_bound (l : List ℕ) (v : ℕ) : ℕ := l.countP (fun x => decide (x < v))

/-- `nvbio::upper_bound` on a sorted range: the index of the first element
above `v`, i.e. the number of elements not above `v`. -/
def upper_bound (l : List ℕ) (v : ℕ) : ℕ := l.countP (fun x => decide (x ≤ v))

/-- The option scalars of the filter stage.  `mask_level` and
`chain_drop_frac` (source name: the chain-drop ratio option) are `float`
in the source, modelled as exact rationals. -/
structure FilterOpts where
  mask_level : ℚ
  chain_drop_frac : ℚ
  min_seed_len : ℕ

/-- The significant-overlap test of `chain_filter_kernel` (line 121):
`min_end - max_begin >= min_l * mask_level`, a `uint32`-to-`float`
promoted comparison.  `min_l` is computed with unguarded `uint32`
subtractions. -/
def significantOverlap (i_span j_span : ℕ × ℕ) (mask_level : ℚ) : Bool :=
  let max_begin := max i_span.1 j_span.1
  let min_end := min i_span.2 j_span.2
  let min_l := min (u32sub i_span.2 i_span.1) (u32sub j_span.2 j_span.1)
  decide (((min_end - max_begin : ℕ) : ℚ) ≥ (min_l : ℚ) * mask_level)

/-- The dominance test of `chain_filter_kernel` (lines 125-126):
`i_w < j_w * chain_drop_ratio && j_w - i_w >= min_seed_len * 2`, with the
first comparison promoted to `float` and `j_w - i_w` a wrapping `uint32`
subtraction. -/
def dominanceBreak (i_w j_w : ℕ) (chain_drop_frac : ℚ) (min_seed_len : ℕ) :
    Bool :=
  decide ((i_w : ℚ) < (j_w : ℚ) * chain_drop_frac) &&
    decide (u32sub j_w i_w ≥ min_seed_len * 2 % U32)

/-- The inner scan of `chain_filter_kernel` (lines 114-135): for chain at
sorted position `i`, scan the already accepted positions starting at `j`,
`count` of them remaining; returns the final value of `j` together with
the updated flags.  An early return models the `break`. -/
def innerScan (ranges : List (ℕ × ℕ)) (weights : List ℕ) (cindex : List ℕ)
    (opts : FilterOpts) (i : ℕ) : ℕ → ℕ → List ℕ → ℕ × List ℕ
  | 0, j, flags => (j, flags)
  | count + 1, j, flags =>
    let i_span := ranges.getD (cindex.getD i 0) (0, 0)
    let j_span := ranges.getD (cindex.getD j 0) (0, 0)
    let i_w := weights.getD i 0 % U32
    let j_w := weights.getD j 0 % U32
    if min i_span.2 j_span.2 > max i_span.1 j_span.1 then
      if significantOverlap i_span j_span opts.mask_level then
        let flags' := flags.set (cindex.getD i 0) 1
        if dominanceBreak i_w j_w opts.chain_drop_frac opts.min_seed_len then
          (j, flags')
        else innerScan ranges weights cindex opts i count (j + 1) flags'
      else innerScan ranges weights cindex opts i count (j + 1) flags
    else innerScan ranges weights cindex opts i count (j + 1) flags

/-- The outer loop of `chain_filter_kernel` (lines 109-142): iterate `i`
over the remaining positions of the read's sub-range; after each inner
scan the source tests `j == n` (not `j == bgn + n`) to decide whether the
chain becomes a new accepted reference chain. -/
def outerLoop (ranges : List (ℕ × ℕ)) (weights : List ℕ) (cindex : List ℕ)
    (opts : FilterOpts) (bgn : ℕ) : ℕ → ℕ → ℕ → List ℕ → List ℕ
  | 0, _, _, flags => flags
  | count + 1, i, n, flags =>
    let r := innerScan ranges weights cindex opts i n bgn flags
    if r.1 = n then
      outerLoop ranges weights cindex opts bgn count (i + 1) (n + 1)
        ((r.2).set (cindex.getD i 0) 1)
    else
      outerLoop ranges weights cindex opts bgn count (i + 1) n r.2

/-- One thread of `chain_filter_kernel` (one read): locate the read's
sub-range by binary search, unconditionally mark the first chain of the
sub-range, then run the greedy scan over the rest. -/
def chain_filter_task (chain_reads : List ℕ) (cindex : List ℕ)
    (ranges : List (ℕ × ℕ)) (weights : List ℕ) (opts : FilterOpts)
    (read_id : ℕ) (flags : List ℕ) : List ℕ :=
  let bgn := lower_bound chain_reads read_id
  let e := upper_bound chain_reads read_id
  let flags1 := flags.set (cindex.getD bgn 0) 1
  outerLoop ranges weights cindex opts bgn (e - (bgn + 1)) (bgn + 1) 1 flags1

/-- The grid launch of `chain_filter_kernel`: one task per read of the
chunk `[read_begin, read_end)`. -/
def chain_filter_kernel (read_begin read_end : ℕ) (chain_reads : List ℕ)
    (cindex : List ℕ) (ranges : List (ℕ × ℕ)) (weights : List ℕ)
    (opts : FilterOpts) (flags0 : List ℕ) : List ℕ :=
  (List.range (read_end - read_begin)).foldl
    (fun flags t =>
      chain_filter_task chain_reads cindex ranges weights opts
        (read_begin + t) flags)
    flags0

/-- `cuda::copy_flagged`: stream compaction, keeping (in order) the
entries of the first `n` elements of `xs` whose flag is nonzero. -/
def copy_flagged (n : ℕ) (xs : List ℕ) (flags : List ℕ) : List ℕ :=
  ((List.range n).filter (fun p => decide (flags.getD p 0 ≠ 0))).map
    (fun p => xs.getD p 0)

/-- The `read_chunk` descriptor: read range and seed (MEM) range. -/
structure ReadChunk where
  read_begin : ℕ
  read_end : ℕ
  mem_begin : ℕ
  mem_end : ℕ

/-- The fields of `mem_state` used by the stage.  A MEM is modelled by its
span only (the only attribute the stage reads). -/
structure MemState where
  mems : List (ℕ × ℕ)
  mems_index : List ℕ
  mems_chain : List ℕ
  chain_reads : List ℕ
  chain_offsets : List ℕ
  chain_lengths : List ℕ
  n_chains : ℕ

/-- The pipeline context: chunk, mem state, and the running kept-chain
statistic `pipeline->stats.n_chains`. -/
structure PipelineState where
  mem : MemState
  chunk : ReadChunk
  stats_n_chains : ℕ

/-- Insertion of a key-value pair into a key-sorted list. -/
def insertSorted (x : ℕ × ℕ) : List (ℕ × ℕ) → List (ℕ × ℕ)
  | [] => [x]
  | y :: ys => if x.1 ≤ y.1 then x :: y :: ys else y :: insertSorted x ys

/-- `thrust::sort_by_key` modelled as an insertion sort of (key, value)
pairs: the output is a key-sorted permutation of the input. -/
def sortPairs (l : List (ℕ × ℕ)) : List (ℕ × ℕ) := l.foldr insertSorted []

/-- Number of seeds of the current chunk. -/
def fc_n_mems (p : PipelineState) : ℕ := p.chunk.mem_end - p.chunk.mem_begin

/-- The chain-id projection of the chunk's seeds. -/
def fc_chains_list (p : PipelineState) : List ℕ :=
  p.mem.mems_chain.take (fc_n_mems p)

/-- Grouping stage: run-length encode the chain-id stream. -/
def fc_groups (p : PipelineState) : List (ℕ × ℕ) :=
  runlength_encode (fc_chains_list p)

/-- Number of chains discovered in the chunk. -/
def fc_n_chains (p : PipelineState) : ℕ := (fc_groups p).length

/-- Per-chain seed counts (`unique_counts` copied into `chain_lengths`). -/
def fc_chain_lengths (p : PipelineState) : List ℕ :=
  (fc_groups p).map Prod.snd

/-- Per-chain start offsets (`thrust::lower_bound` of each unique chain id
in the seed chain-id stream). -/
def fc_chain_offsets (p : PipelineState) : List ℕ :=
  (fc_groups p).map (fun g => lower_bound (fc_chains_list p) g.1)

/-- Per-chain read ids (`hi_bits_functor`: high 32 bits of the chain id). -/
def fc_chain_reads (p : PipelineState) : List ℕ :=
  (fc_groups p).map (fun g => g.1 / U32)

/-- Coverage stage outputs: the chain ranges. -/
def fc_chain_ranges (p : PipelineState) : List (ℕ × ℕ) :=
  (List.range (fc_n_chains p)).map (fun c =>
    (chain_coverage_task ((fc_chain_reads p).getD c 0)
      ((fc_chain_offsets p).getD c 0) ((fc_chain_lengths p).getD c 0)
      p.mem.mems p.mem.mems_index).1)

/-- Coverage stage outputs: the composite (read, weight) keys. -/
def fc_chain_weights (p : PipelineState) : List ℕ :=
  (List.range (fc_n_chains p)).map (fun c =>
    (chain_coverage_task ((fc_chain_reads p).getD c 0)
      ((fc_chain_offsets p).getD c 0) ((fc_chain_lengths p).getD c 0)
      p.mem.mems p.mem.mems_index).2)

/-- Ranking stage: sort the keys carrying the identity permutation. -/
def fc_sorted (p : PipelineState) : List (ℕ × ℕ) :=
  sortPairs ((fc_chain_weights p).zip (List.range (fc_n_chains p)))

/-- The sorted key array (`chain_weights` after `sort_by_key`). -/
def fc_sorted_weights (p : PipelineState) : List ℕ :=
  (fc_sorted p).map Prod.fst

/-- The ranking permutation (`chain_index` after `sort_by_key`). -/
def fc_chain_index (p : PipelineState) : List ℕ :=
  (fc_sorted p).map Prod.snd

/-- The keep flags produced by the filter kernel launch. -/
def fc_chain_flags (opts : FilterOpts) (p : PipelineState) : List ℕ :=
  chain_filter_kernel p.chunk.read_begin p.chunk.read_end
    (fc_chain_reads p) (fc_chain_index p) (fc_chain_ranges p)
    (fc_sorted_weights p) opts (List.replicate (fc_n_chains p) 0)

/-- The host driver `filter_chains`: short-circuit on an empty chunk, else
group, cover, rank, filter and compact, updating the mem state and the
running statistic. -/
def filter_chains (opts : FilterOpts) (p : PipelineState) : PipelineState :=
  if fc_n_mems p = 0 then p
  else
    let n := fc_n_chains p
    let flags := fc_chain_flags opts p
    let new_reads := copy_flagged n (fc_chain_reads p) flags
    { p with
      mem := { p.mem with
        chain_reads := new_reads
        chain_offsets := copy_flagged n (fc_chain_offsets p) flags
        chain_lengths := copy_flagged n (fc_chain_lengths p) flags
        n_chains := new_reads.length }
      stats_n_chains := p.stats_n_chains + new_reads.length }

/-! ## Coverage correctness (C1) -/

lemma covStep_eq (rx ry w a b : ℕ) (hab : a ≤ b) (hb : b < U32)
    (hw : w < U32) :
    covStep ((rx, ry), w) (a, b) =
      ((min rx a, max ry b), (w + (b - max a ry)) % U32) := by
  simp only [covStep, u32sub]
  split_ifs with h1 h2
  · have he : b + U32 - a = (b - a) + U32 := by omega
    rw [he, Nat.add_mod_right, Nat.mod_eq_of_lt (show b - a < U32 by omega),
      max_eq_left h1]
  · rw [max_eq_right (le_of_lt (not_le.mp h1))]
  · have he : b - max a ry = 0 := by
      rcases max_cases a ry with ⟨hm, _⟩ | ⟨hm, _⟩ <;> omega
    rw [he, Nat.add_zero, Nat.mod_eq_of_lt hw]

lemma covLoop_spec (spans : List (ℕ × ℕ)) :
    ∀ (rx ry w A : ℕ) (U : Finset ℕ),
      spans.Pairwise (fun s t => s.1 ≤ t.1) →
      (∀ s ∈ spans, A ≤ s.1 ∧ s.1 ≤ s.2 ∧ s.2 < U32) →
      w = U.card → (∀ x ∈ U, x < ry) → Finset.Ico A ry ⊆ U → ry < U32 →
      (spans.foldl covStep ((rx, ry), w)).2 = (U ∪ spanUnion spans).card ∧
      (spans.foldl covStep ((rx, ry), w)).1.1 =
        spans.foldl (fun m s => min m s.1) rx ∧
      (spans.foldl covStep ((rx, ry), w)).1.2 =
        spans.foldl (fun m s => max m s.2) ry := by
  induction spans with
  | nil =>
    intro rx ry w A U _ _ hw _ _ _
    simp [spanUnion, hw]
  | cons s t ih =>
    intro rx ry w A U hp hc hw hU hcov hry
    obtain ⟨a, b⟩ := s
    obtain ⟨haA, hab, hbU⟩ := hc (a, b) (by simp)
    have hhead : ∀ u ∈ t, a ≤ u.1 := (List.pairwise_cons.mp hp).1
    have ht : t.Pairwise (fun s t => s.1 ≤ t.1) := (List.pairwise_cons.mp hp).2
    have hwlt : w < U32 := by
      have : U.card ≤ (Finset.Ico 0 ry).card := by
        apply Finset.card_le_card
        intro x hx
        exact Finset.mem_Ico.mpr ⟨Nat.zero_le _, hU x hx⟩
      rw [Nat.card_Ico, Nat.sub_zero] at this
      omega
    have hdiff : Finset.Ico a b \ U = Finset.Ico (max a ry) b := by
      ext x
      simp only [Finset.mem_sdiff, Finset.mem_Ico, max_le_iff]
      constructor
      · rintro ⟨⟨hax, hxb⟩, hxU⟩
        refine ⟨⟨hax, ?_⟩, hxb⟩
        by_contra hlt
        exact hxU (hcov (Finset.mem_Ico.mpr
          ⟨le_trans haA hax, lt_of_not_le hlt⟩))
      · rintro ⟨⟨hax, hryx⟩, hxb⟩
        exact ⟨⟨hax, hxb⟩,
          fun hxU => absurd (hU x hxU) (not_lt.mpr hryx)⟩
    have hcard : (U ∪ Finset.Ico a b).card = U.card + (b - max a ry) := by
      rw [← Finset.union_sdiff_self_eq_union,
        Finset.card_union_of_disjoint Finset.disjoint_sdiff, hdiff,
        Nat.card_Ico]
    have hU'sub : U ∪ Finset.Ico a b ⊆ Finset.Ico 0 (max ry b) := by
      intro x hx
      rcases Finset.mem_union.mp hx with h | h
      · exact Finset.mem_Ico.mpr
          ⟨Nat.zero_le _, lt_of_lt_of_le (hU x h) (le_max_left _ _)⟩
      · exact Finset.mem_Ico.mpr
          ⟨Nat.zero_le _, lt_of_lt_of_le (Finset.mem_Ico.mp h).2
            (le_max_right _ _)⟩
    have hcard_lt : (U ∪ Finset.Ico a b).card < U32 := by
      have h1 : (U ∪ Finset.Ico a b).card ≤ (Finset.Ico 0 (max ry b)).card :=
        Finset.card_le_card hU'sub
      rw [Nat.card_Ico, Nat.sub_zero] at h1
      have h2 : max ry b < U32 := max_lt hry hbU
      omega
    have hwval : (w + (b - max a ry)) % U32 = (U ∪ Finset.Ico a b).card := by
      rw [hw, ← hcard, Nat.mod_eq_of_lt hcard_lt]
    have hrec := ih (min rx a) (max ry b) ((w + (b - max a ry)) % U32) a
      (U ∪ Finset.Ico a b) ht
      (fun u hu => ⟨hhead u hu, (hc u (List.mem_cons_of_mem _ hu)).2⟩)
      hwval
      (by
        intro x hx
        rcases Finset.mem_union.mp hx with h | h
        · exact lt_of_lt_of_le (hU x h) (le_max_left _ _)
        · exact lt_of_lt_of_le (Finset.mem_Ico.mp h).2 (le_max_right _ _))
      (by
        intro x hx
        obtain ⟨hax, hxm⟩ := Finset.mem_Ico.mp hx
        rcases lt_or_le x b with hxb | hbx
        · exact Finset.mem_union_right _ (Finset.mem_Ico.mpr ⟨hax, hxb⟩)
        · have hxry : x < ry := by omega
          exact Finset.mem_union_left _
            (hcov (Finset.mem_Ico.mpr ⟨le_trans haA hax, hxry⟩)))
      (max_lt hry hbU)
    rw [List.foldl_cons, covStep_eq rx ry w a b hab hbU hwlt]
    rw [List.foldl_cons, List.foldl_cons]
    refine ⟨?_, hrec.2.1, hrec.2.2⟩
    rw [hrec.1]
    congr 1
    show U ∪ Finset.Ico a b ∪ spanUnion t = U ∪ spanUnion ((a, b) :: t)
    rw [Finset.union_assoc]
    rfl

lemma foldl_min_le_all (l : List ℕ) :
    ∀ init : ℕ, l.foldl min init ≤ init ∧ ∀ x ∈ l, l.foldl min init ≤ x := by
  induction l with
  | nil => simp
  | cons a t ih =>
    intro init
    have h := ih (min init a)
    refine ⟨le_trans h.1 (min_le_left _ _), ?_⟩
    intro x hx
    rcases List.mem_cons.mp hx with rfl | hx
    · exact le_trans h.1 (min_le_right _ _)
    · exact h.2 x hx

lemma foldl_min_mem (l : List ℕ) :
    ∀ init : ℕ, l.foldl min init = init ∨ l.foldl min init ∈ l := by
  induction l with
  | nil => simp
  | cons a t ih =>
    intro init
    rcases ih (min init a) with h | h
    · rcases min_choice init a with hm | hm
      · left; rw [List.foldl_cons, h, hm]
      · right; rw [List.foldl_cons, h, hm]; exact List.mem_cons_self _ _
    · right; exact List.mem_cons_of_mem _ h

lemma foldl_max_ge_all (l : List ℕ) :
    ∀ init : ℕ, init ≤ l.foldl max init ∧ ∀ x ∈ l, x ≤ l.foldl max init := by
  induction l with
  | nil => simp
  | cons a t ih =>
    intro init
    have h := ih (max init a)
    refine ⟨le_trans (le_max_left _ _) h.1, ?_⟩
    intro x hx
    rcases List.mem_cons.mp hx with rfl | hx
    · exact le_trans (le_max_right _ _) h.1
    · exact h.2 x hx

lemma foldl_max_mem (l : List ℕ) :
    ∀ init : ℕ, l.foldl max init = init ∨ l.foldl max init ∈ l := by
  induction l with
  | nil => simp
  | cons a t ih =>
    intro init
    rcases ih (max init a) with h | h
    · rcases max_choice init a with hm | hm
      · left; rw [List.foldl_cons, h, hm]
      · right; rw [List.foldl_cons, h, hm]; exact List.mem_cons_self _ _
    · right; exact List.mem_cons_of_mem _ h

/-- C1: for every chain whose seed spans are sorted by ascending begin
coordinate (with well-formed `uint32` half-open spans), the weight computed
by the coverage pass equals the length of the union of the intervals
(overlapping regions counted once, exact touching included), and the
output range is the union span `[min aᵢ, max bᵢ)`. -/
theorem chain_coverage_weight_spec (spans : List (ℕ × ℕ))
    (hne : spans ≠ [])
    (hsort : spans.Pairwise (fun s t => s.1 ≤ t.1))
    (hwf : ∀ s ∈ spans, s.1 ≤ s.2 ∧ s.2 < U32) :
    (chainCoverage spans).2 = (spanUnion spans).card ∧
    ((chainCoverage spans).1.1 ∈ spans.map Prod.fst ∧
      ∀ s ∈ spans, (chainCoverage spans).1.1 ≤ s.1) ∧
    ((chainCoverage spans).1.2 ∈ spans.map Prod.snd ∧
      ∀ s ∈ spans, s.2 ≤ (chainCoverage spans).1.2) := by
  have h := covLoop_spec spans (U32 - 1) 0 0 0 ∅ hsort
    (fun s hs => ⟨Nat.zero_le _, (hwf s hs).1, (hwf s hs).2⟩)
    (by simp) (by simp) (by simp) (by simp [U32])
  obtain ⟨s0, hs0⟩ := List.exists_mem_of_ne_nil spans hne
  have hminf : spans.foldl (fun m s => min m s.1) (U32 - 1) =
      (spans.map Prod.fst).foldl min (U32 - 1) := by
    rw [List.foldl_map]
  have hmaxf : spans.foldl (fun m s => max m s.2) 0 =
      (spans.map Prod.snd).foldl max 0 := by
    rw [List.foldl_map]
  refine ⟨by simpa using h.1, ?_, ?_⟩
  · constructor
    · rw [show (chainCoverage spans).1.1 =
        (spans.map Prod.fst).foldl min (U32 - 1) from h.2.1.trans hminf]
      rcases foldl_min_mem (spans.map Prod.fst) (U32 - 1) with hm | hm
      · have hle := (foldl_min_le_all (spans.map Prod.fst) (U32 - 1)).2
          s0.1 (List.mem_map_of_mem Prod.fst hs0)
        have hs0b : s0.1 ≤ U32 - 1 := by
          have := hwf s0 hs0
          omega
        have : (spans.map Prod.fst).foldl min (U32 - 1) = s0.1 := by omega
        rw [this]
        exact List.mem_map_of_mem Prod.fst hs0
      · exact hm
    · intro s hs
      rw [show (chainCoverage spans).1.1 =
        (spans.map Prod.fst).foldl min (U32 - 1) from h.2.1.trans hminf]
      exact (foldl_min_le_all (spans.map Prod.fst) (U32 - 1)).2 s.1
        (List.mem_map_of_mem Prod.fst hs)
  · constructor
    · rw [show (chainCoverage spans).1.2 =
        (spans.map Prod.snd).foldl max 0 from h.2.2.trans hmaxf]
      rcases foldl_max_mem (spans.map Prod.snd) 0 with hm | hm
      · have hge := (foldl_max_ge_all (spans.map Prod.snd) 0).2
          s0.2 (List.mem_map_of_mem Prod.snd hs0)
        have : (spans.map Prod.snd).foldl max 0 = s0.2 := by omega
        rw [this]
        exact List.mem_map_of_mem Prod.snd hs0
      · exact hm
    · intro s hs
      rw [show (chainCoverage spans).1.2 =
        (spans.map Prod.snd).foldl max 0 from h.2.2.trans hmaxf]
      exact (foldl_max_ge_all (spans.map Prod.snd) 0).2 s.2
        (List.mem_map_of_mem Prod.snd hs)

/-- Witness for C1 at the exact-touching chain `[0,5), [5,9)`. -/
theorem chain_coverage_weight_spec_witness :
    (([(0, 5), (5, 9)] : List (ℕ × ℕ)) ≠ [] ∧
      ([(0, 5), (5, 9)] : List (ℕ × ℕ)).Pairwise (fun s t => s.1 ≤ t.1)) ∧
    (chainCoverage [(0, 5), (5, 9)]).2 = (spanUnion [(0, 5), (5, 9)]).card ∧
    (chainCoverage [(0, 5), (5, 9)]).1.1 ≤ ((0, 5) : ℕ × ℕ).1 :=
  ⟨⟨by decide, by decide⟩,
    (chain_coverage_weight_spec [(0, 5), (5, 9)] (by decide) (by decide)
      (by decide)).1,
    (chain_coverage_weight_spec [(0, 5), (5, 9)] (by decide) (by decide)
      (by decide)).2.1.2 (0, 5) (by decide)⟩

/-! ## Grouping partition invariants (C5) -/

lemma rle_flatten (l : List ℕ) :
    ((runlength_encode l).map (fun p => List.replicate p.2 p.1)).flatten
      = l := by
  induction l with
  | nil => rfl
  | cons x xs ih =>
    cases h : runlength_encode xs with
    | nil =>
      have hxs : xs = [] := by rw [h] at ih; simpa using ih.symm
      subst hxs
      simp [runlength_encode]
    | cons p rest =>
      obtain ⟨y, c⟩ := p
      rw [h] at ih
      by_cases hxy : x = y
      · subst hxy
        rw [show runlength_encode (x :: xs) = (x, c + 1) :: rest by
          simp [runlength_encode, h]]
        simp only [List.map_cons, List.flatten_cons] at ih ⊢
        rw [List.replicate_succ, List.cons_append, ih]
      · rw [show runlength_encode (x :: xs) = (x, 1) :: (y, c) :: rest by
          simp [runlength_encode, h, hxy]]
        simp only [List.map_cons, List.flatten_cons] at ih ⊢
        rw [show List.replicate 1 x = [x] from rfl, List.cons_append,
          List.nil_append, ih]

lemma rle_mem (l : List ℕ) : ∀ p ∈ runlength_encode l, p.1 ∈ l := by
  induction l with
  | nil => simp [runlength_encode]
  | cons x xs ih =>
    intro p hp
    cases h : runlength_encode xs with
    | nil =>
      rw [show runlength_encode (x :: xs) = [(x, 1)] by
        simp [runlength_encode, h]] at hp
      simp only [List.mem_singleton] at hp
      subst hp
      exact List.mem_cons_self _ _
    | cons q rest =>
      obtain ⟨y, c⟩ := q
      by_cases hxy : x = y
      · subst hxy
        rw [show runlength_encode (x :: xs) = (x, c + 1) :: rest by
          simp [runlength_encode, h]] at hp
        rcases List.mem_cons.mp hp with rfl | hp'
        · exact List.mem_cons_self _ _
        · exact List.mem_cons_of_mem _
            (ih p (by rw [h]; exact List.mem_cons_of_mem _ hp'))
      · rw [show runlength_encode (x :: xs) = (x, 1) :: (y, c) :: rest by
          simp [runlength_encode, h, hxy]] at hp
        rcases List.mem_cons.mp hp with rfl | hp'
        · exact List.mem_cons_self _ _
        · exact List.mem_cons_of_mem _ (ih p (by rw [h]; exact hp'))

lemma rle_pairwise (l : List ℕ) :
    l.Pairwise (· ≤ ·) →
      (runlength_encode l).Pairwise (fun p q => p.1 < q.1) := by
  induction l with
  | nil => intro _; simp [runlength_encode]
  | cons x xs ih =>
    intro hs
    have hhead := (List.pairwise_cons.mp hs).1
    have hrle := ih (List.pairwise_cons.mp hs).2
    cases h : runlength_encode xs with
    | nil =>
      rw [show runlength_encode (x :: xs) = [(x, 1)] by
        simp [runlength_encode, h]]
      simp
    | cons q rest =>
      obtain ⟨y, c⟩ := q
      rw [h] at hrle
      have hy : y ∈ xs :=
        rle_mem xs (y, c) (by rw [h]; exact List.mem_cons_self _ _)
      by_cases hxy : x = y
      · subst hxy
        rw [show runlength_encode (x :: xs) = (x, c + 1) :: rest by
          simp [runlength_encode, h]]
        rw [List.pairwise_cons] at hrle ⊢
        exact ⟨fun q hq => hrle.1 q hq, hrle.2⟩
      · rw [show runlength_encode (x :: xs) = (x, 1) :: (y, c) :: rest by
          simp [runlength_encode, h, hxy]]
        rw [List.pairwise_cons]
        refine ⟨?_, hrle⟩
        intro q hq
        rcases List.mem_cons.mp hq with rfl | hq'
        · exact lt_of_le_of_ne (hhead y hy) hxy
        · exact lt_of_le_of_lt (hhead y hy) ((List.pairwise_cons.mp hrle).1 q hq')

lemma rle_sum_counts (l : List ℕ) :
    ((runlength_encode l).map Prod.snd).sum = l.length := by
  conv_rhs => rw [← rle_flatten l]
  rw [List.length_flatten, List.map_map]
  congr 1
  apply List.map_congr_left
  intro p _
  simp

lemma sum_if_lt_of_pairwise (gs : List (ℕ × ℕ)) :
    ∀ k : ℕ, k < gs.length → gs.Pairwise (fun p q => p.1 < q.1) →
      (gs.map (fun g => if g.1 < (gs.getD k (0, 0)).1 then g.2 else 0)).sum =
        ((gs.map Prod.snd).take k).sum := by
  induction gs with
  | nil => intro k hk; simp at hk
  | cons g t ih =>
    intro k hk hp
    cases k with
    | zero =>
      rw [List.getD_cons_zero, List.take_zero, List.sum_nil]
      apply List.sum_eq_zero
      intro x hx
      simp only [List.mem_map] at hx
      obtain ⟨u, hu, rfl⟩ := hx
      rcases List.mem_cons.mp hu with rfl | hu'
      · simp
      · have hlt : g.1 < u.1 := (List.pairwise_cons.mp hp).1 u hu'
        rw [if_neg (by omega)]
    | succ k' =>
      have hk' : k' < t.length := by simpa using hk
      rw [List.getD_cons_succ]
      simp only [List.map_cons, List.sum_cons]
      have hmem : t.getD k' (0, 0) ∈ t := by
        rw [List.getD_eq_getElem _ _ hk']
        exact List.getElem_mem hk'
      have hhd : g.1 < (t.getD k' (0, 0)).1 :=
        (List.pairwise_cons.mp hp).1 _ hmem
      rw [if_pos hhd, ih k' hk' (List.pairwise_cons.mp hp).2,
        List.take_succ_cons, List.sum_cons]

lemma lower_bound_flatten (l : List ℕ) (v : ℕ) :
    lower_bound l v =
      ((runlength_encode l).map
        (fun g => if g.1 < v then g.2 else 0)).sum := by
  conv_lhs => rw [lower_bound, ← rle_flatten l]
  rw [List.countP_flatten, List.map_map]
  congr 1
  apply List.map_congr_left
  intro g _
  simp [List.countP_replicate]

lemma rle_lower_bound (l : List ℕ) (hs : l.Pairwise (· ≤ ·)) (k : ℕ)
    (hk : k < (runlength_encode l).length) :
    lower_bound l ((runlength_encode l).getD k (0, 0)).1 =
      (((runlength_encode l).map Prod.snd).take k).sum := by
  rw [lower_bound_flatten]
  exact sum_if_lt_of_pairwise (runlength_encode l) k hk (rle_pairwise l hs)

/-- C5: after grouping, the (offset, length) pairs exactly partition
`[0, n_seeds)`: offsets are the prefix sums of the lengths (so consecutive
chains are adjacent, with no gaps and no overlaps) and the lengths sum to
`n_seeds`; the chain table is in strictly ascending chain-identifier
order, hence the read ids are ascending. -/
theorem chain_grouping_partition_spec (l : List ℕ)
    (hs : l.Pairwise (· ≤ ·)) :
    ((runlength_encode l).map Prod.snd).sum = l.length ∧
    (∀ k, k < (runlength_encode l).length →
      lower_bound l ((runlength_encode l).getD k (0, 0)).1 =
        (((runlength_encode l).map Prod.snd).take k).sum) ∧
    (∀ k, k + 1 < (runlength_encode l).length →
      lower_bound l ((runlength_encode l).getD (k + 1) (0, 0)).1 =
        lower_bound l ((runlength_encode l).getD k (0, 0)).1 +
          ((runlength_encode l).getD k (0, 0)).2) ∧
    ((runlength_encode l).map Prod.fst).Pairwise (· < ·) ∧
    ((runlength_encode l).map (fun g => g.1 / U32)).Pairwise (· ≤ ·) := by
  have hlb := rle_lower_bound l hs
  refine ⟨rle_sum_counts l, hlb, ?_, ?_, ?_⟩
  · intro k hk1
    have hk : k < (runlength_encode l).length := by omega
    have hkm : k < ((runlength_encode l).map Prod.snd).length := by
      simpa using hk
    rw [hlb (k + 1) hk1, hlb k hk, List.sum_take_succ _ k hkm]
    congr 1
    rw [List.getElem_map, List.getD_eq_getElem _ _ hk]
  · exact List.Pairwise.map Prod.fst (fun p q h => h) (rle_pairwise l hs)
  · exact List.Pairwise.map (fun g : ℕ × ℕ => g.1 / U32)
      (fun p q h => Nat.div_le_div_right (le_of_lt h)) (rle_pairwise l hs)

/-- Witness for C5 on the chain-id stream `[5, 5, 7, 2^32 + 1]`. -/
theorem chain_grouping_partition_spec_witness :
    ([5, 5, 7, 2 ^ 32 + 1] : List ℕ).Pairwise (· ≤ ·) ∧
    ((runlength_encode [5, 5, 7, 2 ^ 32 + 1]).map Prod.snd).sum =
      ([5, 5, 7, 2 ^ 32 + 1] : List ℕ).length ∧
    lower_bound [5, 5, 7, 2 ^ 32 + 1]
        ((runlength_encode [5, 5, 7, 2 ^ 32 + 1]).getD 1 (0, 0)).1 =
      (((runlength_encode [5, 5, 7, 2 ^ 32 + 1]).map Prod.snd).take 1).sum :=
  ⟨by decide,
    (chain_grouping_partition_spec [5, 5, 7, 2 ^ 32 + 1] (by decide)).1,
    (chain_grouping_partition_spec [5, 5, 7, 2 ^ 32 + 1] (by decide)).2.1 1
      (by decide)⟩

/-! ## Degenerate chunk (C9), filter-kernel bugs (C2, C8) -/

/-- A sample option set (`mask_level = chain_drop_ratio = 0.5`,
`min_seed_len = 5`) used for concrete evaluations. -/
def sampleOpts : FilterOpts := ⟨1 / 2, 1 / 2, 5⟩

/-- A pipeline state whose current chunk has `n_mems = 0` while the chain
tables still hold the previous chunk's data (5 chains reported). -/
def emptyChunkState : PipelineState :=
  { mem := { mems := [], mems_index := [], mems_chain := [],
             chain_reads := [3], chain_offsets := [0], chain_lengths := [2],
             n_chains := 5 }
    chunk := { read_begin := 0, read_end := 1, mem_begin := 3, mem_end := 3 }
    stats_n_chains := 7 }

/-- C9 (amended): when the chunk contains zero seeds, `filter_chains`
returns immediately as a no-op with the whole pipeline state unchanged —
the chain tables and the reported chain count keep their previous
contents (they are not cleared), and no downstream stage runs. -/
theorem skip_empty_noop_spec (opts : FilterOpts) (p : PipelineState)
    (h : fc_n_mems p = 0) : filter_chains opts p = p := by
  simp [filter_chains, h]

/-- Witness for the amended C9. -/
theorem skip_empty_noop_spec_witness :
    fc_n_mems emptyChunkState = 0 ∧
    filter_chains sampleOpts emptyChunkState = emptyChunkState :=
  ⟨rfl, skip_empty_noop_spec sampleOpts emptyChunkState rfl⟩

/-- C9 counterexample to the claim as stated: on a zero-seed chunk the
chain tables are NOT left empty and the reported chain count is NOT zero —
the previous chunk's tables (here 5 chains, a nonempty read table) are
still in place after the call. -/
theorem skip_empty_leaves_state_counterexample :
    fc_n_mems emptyChunkState = 0 ∧
    (filter_chains sampleOpts emptyChunkState).mem.n_chains ≠ 0 ∧
    (filter_chains sampleOpts emptyChunkState).mem.chain_reads ≠ [] := by
  refine ⟨rfl, ?_, ?_⟩ <;> decide

/-- C2 (code-bug evidence): reads `[0, 1, 1]`, the two chains of read 1
not overlapping.  For chain `i = 2` of read 1 the inner scan completes
without a significant overlap and without the dominance break (it returns
`j = 2 = begin + n`), so per the claim the chain must be marked kept and
`n` incremented; but the source compares `j == n` (with `begin = 1`,
`n = 1`), so the kernel leaves that chain's flag at 0. -/
theorem chain_filter_lost_chain_bug :
    (innerScan [(0, 10), (0, 5), (100, 105)] [10, 2 ^ 32 + 5, 2 ^ 32 + 7]
        [0, 1, 2] sampleOpts 2 1 1 [1, 1, 0]).1 = 1 + 1 ∧
    chain_filter_kernel 0 2 [0, 1, 1] [0, 1, 2]
        [(0, 10), (0, 5), (100, 105)] [10, 2 ^ 32 + 5, 2 ^ 32 + 7]
        sampleOpts [0, 0, 0] = [1, 1, 0] := by
  exact ⟨by decide, by decide⟩

/-- C8 (code-bug evidence): read 0 contributes zero chains
(`lower_bound = upper_bound`), yet its filter task writes anyway: the
unconditional first-chain mark flags `chain_index[begin]`, which belongs
to a different read — the flags array changes from `[0]` to `[1]`. -/
theorem filter_zero_chain_read_bug :
    lower_bound [1] 0 = upper_bound [1] 0 ∧
    chain_filter_task [1] [0] [(0, 5)] [2 ^ 32 + 3] sampleOpts 0 [0] =
      [1] := by
  exact ⟨by decide, by decide⟩

/-! ## Boundary exactness of the overlap and dominance tests (C4) -/

/-- C4: (i) an overlap exactly equal to `min(len_i, len_j) * mask_level`
is significant (inclusive `>=`); (ii) `i_w` exactly equal to
`j_w * chain_drop_ratio` does not fire the dominance break (strict `<`);
(iii) `i_w` one unit below does fire it when the absolute gap meets
`min_seed_len * 2`; (iv) for `i_w ≤ j_w < 2^32` the break fires exactly
when both the strict relative test and the absolute-gap test hold. -/
theorem overlap_dominance_boundary_spec :
    (∀ (i_span j_span : ℕ × ℕ) (ml : ℚ),
      ((min i_span.2 j_span.2 - max i_span.1 j_span.1 : ℕ) : ℚ) =
        ((min (u32sub i_span.2 i_span.1) (u32sub j_span.2 j_span.1) : ℕ) :
          ℚ) * ml →
      significantOverlap i_span j_span ml = true) ∧
    (∀ (i_w j_w : ℕ) (dr : ℚ) (msl : ℕ),
      (i_w : ℚ) = (j_w : ℚ) * dr →
      dominanceBreak i_w j_w dr msl = false) ∧
    (∀ (i_w j_w : ℕ) (dr : ℚ) (msl : ℕ),
      (i_w : ℚ) + 1 = (j_w : ℚ) * dr → dr ≤ 1 → j_w < U32 →
      msl * 2 % U32 ≤ j_w - i_w →
      dominanceBreak i_w j_w dr msl = true) ∧
    (∀ (i_w j_w : ℕ) (dr : ℚ) (msl : ℕ), i_w ≤ j_w → j_w < U32 →
      (dominanceBreak i_w j_w dr msl = true ↔
        ((i_w : ℚ) < (j_w : ℚ) * dr ∧ msl * 2 % U32 ≤ j_w - i_w))) := by
  have hsub : ∀ i_w j_w : ℕ, i_w ≤ j_w → j_w < U32 →
      u32sub j_w i_w = j_w - i_w := by
    intro i_w j_w hle hlt
    simp only [u32sub]
    rw [show j_w + U32 - i_w = (j_w - i_w) + U32 by omega,
      Nat.add_mod_right, Nat.mod_eq_of_lt (by omega)]
  refine ⟨?_, ?_, ?_, ?_⟩
  · intro i_span j_span ml h
    simp only [significantOverlap, decide_eq_true_eq]
    exact ge_of_eq h
  · intro i_w j_w dr msl h
    have hnot : ¬((i_w : ℚ) < (j_w : ℚ) * dr) := by
      rw [← h]; exact lt_irrefl _
    simp [dominanceBreak, hnot]
  · intro i_w j_w dr msl h1 hdr hjw h2
    have hlt : (i_w : ℚ) < (j_w : ℚ) * dr := by
      rw [← h1]; linarith
    have hij : i_w < j_w := by
      have hq : (i_w : ℚ) + 1 ≤ (j_w : ℚ) := by
        calc (i_w : ℚ) + 1 = (j_w : ℚ) * dr := h1
          _ ≤ (j_w : ℚ) * 1 := by
              apply mul_le_mul_of_nonneg_left hdr
              exact_mod_cast Nat.zero_le _
          _ = (j_w : ℚ) := by ring
      have : (i_w : ℚ) < (j_w : ℚ) := by linarith
      exact_mod_cast this
    simp only [dominanceBreak, hsub i_w j_w (le_of_lt hij) hjw,
      Bool.and_eq_true, decide_eq_true_eq]
    exact ⟨hlt, h2⟩
  · intro i_w j_w dr msl hle hlt
    simp only [dominanceBreak, hsub i_w j_w hle hlt, Bool.and_eq_true,
      decide_eq_true_eq]

/-- Witness for C4 at `mask_level = chain_drop_ratio = 1/2`:
overlap 2 with smaller length 4; weights (5, 10) at the exact ratio and
(4, 10) one unit below with gap `6 = min_seed_len * 2`. -/
theorem overlap_dominance_boundary_spec_witness :
    ((min (4, 8).2 (2, 6).2 - max (4, 8).1 (2, 6).1 : ℕ) : ℚ) =
      ((min (u32sub (4, 8).2 (4, 8).1) (u32sub (2, 6).2 (2, 6).1) : ℕ) : ℚ) *
        (1 / 2) ∧
    significantOverlap (4, 8) (2, 6) (1 / 2) = true ∧
    dominanceBreak 5 10 (1 / 2) 3 = false ∧
    dominanceBreak 4 10 (1 / 2) 3 = true :=
  ⟨by norm_num [u32sub, U32],
    overlap_dominance_boundary_spec.1 (4, 8) (2, 6) (1 / 2)
      (by norm_num [u32sub, U32]),
    overlap_dominance_boundary_spec.2.1 5 10 (1 / 2) 3 (by norm_num),
    overlap_dominance_boundary_spec.2.2.1 4 10 (1 / 2) 3 (by norm_num)
      (by norm_num) (by norm_num [U32]) (by decide)⟩

/-! ## Compaction (C7) -/

/-- The selection realized by the three `cuda::copy_flagged` calls: the
ascending list of chain indices whose keep flag is nonzero. -/
def fc_selected (opts : FilterOpts) (p : PipelineState) : List ℕ :=
  (List.range (fc_n_chains p)).filter
    (fun c => decide ((fc_chain_flags opts p).getD c 0 ≠ 0))

/-- C7: compaction keeps exactly the flagged chains, in their original
relative order, applying the identical selection to `chain_reads`,
`chain_offsets` and `chain_lengths` (so the arrays stay positionally
consistent); the resulting count is at most `n_chains` and is added to the
chunk-spanning kept-chain statistic. -/
theorem compaction_spec (opts : FilterOpts) (p : PipelineState)
    (h : fc_n_mems p ≠ 0) :
    (fc_selected opts p).Pairwise (· < ·) ∧
    (∀ c ∈ fc_selected opts p,
      c < fc_n_chains p ∧ (fc_chain_flags opts p).getD c 0 ≠ 0) ∧
    (∀ c, c < fc_n_chains p → (fc_chain_flags opts p).getD c 0 ≠ 0 →
      c ∈ fc_selected opts p) ∧
    (filter_chains opts p).mem.chain_reads =
      (fc_selected opts p).map (fun c => (fc_chain_reads p).getD c 0) ∧
    (filter_chains opts p).mem.chain_offsets =
      (fc_selected opts p).map (fun c => (fc_chain_offsets p).getD c 0) ∧
    (filter_chains opts p).mem.chain_lengths =
      (fc_selected opts p).map (fun c => (fc_chain_lengths p).getD c 0) ∧
    (filter_chains opts p).mem.n_chains = (fc_selected opts p).length ∧
    (fc_selected opts p).length ≤ fc_n_chains p ∧
    (filter_chains opts p).stats_n_chains =
      p.stats_n_chains + (fc_selected opts p).length := by
  have hsel : ∀ c ∈ fc_selected opts p,
      c < fc_n_chains p ∧ (fc_chain_flags opts p).getD c 0 ≠ 0 := by
    intro c hc
    rw [fc_selected, List.mem_filter, List.mem_range] at hc
    exact ⟨hc.1, by simpa using hc.2⟩
  refine ⟨(List.pairwise_lt_range _).filter _, hsel, ?_, ?_, ?_, ?_, ?_, ?_, ?_⟩
  · intro c hc hf
    rw [fc_selected, List.mem_filter, List.mem_range]
    exact ⟨hc, by simpa using hf⟩
  · simp only [filter_chains, if_neg h]
    rfl
  · simp only [filter_chains, if_neg h]
    rfl
  · simp only [filter_chains, if_neg h]
    rfl
  · simp only [filter_chains, if_neg h]
    show (copy_flagged (fc_n_chains p) (fc_chain_reads p)
      (fc_chain_flags opts p)).length = (fc_selected opts p).length
    rw [copy_flagged, List.length_map, fc_selected]
  · have hle : (fc_selected opts p).length ≤ (List.range (fc_n_chains p)).length :=
      List.length_filter_le _ _
    simpa using hle
  · simp only [filter_chains, if_neg h]
    show p.stats_n_chains + (copy_flagged (fc_n_chains p) (fc_chain_reads p)
      (fc_chain_flags opts p)).length =
      p.stats_n_chains + (fc_selected opts p).length
    rw [copy_flagged, List.length_map, fc_selected]

/-- A one-seed, one-read pipeline state. -/
def oneSeedState : PipelineState :=
  { mem := { mems := [(0, 5)], mems_index := [0], mems_chain := [0],
             chain_reads := [], chain_offsets := [], chain_lengths := [],
             n_chains := 0 }
    chunk := { read_begin := 0, read_end := 1, mem_begin := 0, mem_end := 1 }
    stats_n_chains := 0 }

/-- Witness for C7 on the one-seed state. -/
theorem compaction_spec_witness :
    fc_n_mems oneSeedState ≠ 0 ∧
    (filter_chains sampleOpts oneSeedState).mem.chain_reads =
      (fc_selected sampleOpts oneSeedState).map
        (fun c => (fc_chain_reads oneSeedState).getD c 0) ∧
    (filter_chains sampleOpts oneSeedState).mem.n_chains =
      (fc_selected sampleOpts oneSeedState).length ∧
    (filter_chains sampleOpts oneSeedState).stats_n_chains =
      oneSeedState.stats_n_chains +
        (fc_selected sampleOpts oneSeedState).length :=
  ⟨by decide,
    (compaction_spec sampleOpts oneSeedState (by decide)).2.2.2.1,
    (compaction_spec sampleOpts oneSeedState (by decide)).2.2.2.2.2.2.1,
    (compaction_spec sampleOpts oneSeedState (by decide)).2.2.2.2.2.2.2.2⟩

/-! ## Ranking machinery (C3, C6, C10) -/

lemma map_getD_range (l : List ℕ) :
    (List.range l.length).map (fun i => l.getD i 0) = l := by
  apply List.ext_getElem
  · simp
  · intro i h1 h2
    simp only [List.getElem_map, List.getElem_range]
    rw [List.getD_eq_getElem _ _ h2]

lemma pairwise_le_getD (L : List ℕ) (h : L.Pairwise (· ≤ ·)) (p q : ℕ)
    (hpq : p ≤ q) (hq : q < L.length) : L.getD p 0 ≤ L.getD q 0 := by
  rcases eq_or_lt_of_le hpq with rfl | hlt
  · exact le_refl _
  · have hp : p < L.length := lt_trans hlt hq
    rw [List.getD_eq_getElem _ _ hp, List.getD_eq_getElem _ _ hq]
    exact List.pairwise_iff_getElem.mp h p q hp hq hlt

lemma sorted_countP_char (P : ℕ → Bool)
    (hdc : ∀ x y : ℕ, x ≤ y → P y = true → P x = true) :
    ∀ L : List ℕ, L.Pairwise (· ≤ ·) → ∀ p, p < L.length →
      (P (L.getD p 0) = true ↔ p < L.countP P) := by
  intro L
  induction L with
  | nil => intro _ p hp; simp at hp
  | cons a t ih =>
    intro hs p hp
    have hhead := (List.pairwise_cons.mp hs).1
    have ht := (List.pairwise_cons.mp hs).2
    rw [List.countP_cons]
    cases p with
    | zero =>
      rw [List.getD_cons_zero]
      constructor
      · intro hPa
        rw [if_pos hPa]
        omega
      · intro hlt
        by_contra hPa
        have h0 : List.countP P t = 0 := by
          rw [List.countP_eq_zero]
          intro x hx hPx
          exact hPa (hdc a x (hhead x hx) hPx)
        rw [h0, if_neg hPa] at hlt
        omega
    | succ p' =>
      have hp' : p' < t.length := by simpa using hp
      rw [List.getD_cons_succ]
      by_cases hPa : P a = true
      · rw [if_pos hPa, ih ht p' hp']
        omega
      · have h0 : List.countP P t = 0 := by
          rw [List.countP_eq_zero]
          intro x hx hPx
          exact hPa (hdc a x (hhead x hx) hPx)
        rw [if_neg hPa, h0]
        constructor
        · intro hPt
          have := (ih ht p' hp').mp hPt
          omega
        · intro hcon
          omega

lemma mod_le_of_le_of_div_eq (a b m : ℕ) (hab : a ≤ b)
    (hdiv : a / m = b / m) : a % m ≤ b % m := by
  have ha := Nat.div_add_mod a m
  have hb := Nat.div_add_mod b m
  rw [hdiv] at ha
  omega

lemma rank_sigma_lt (keys σ : List ℕ)
    (hσ : σ.Perm (List.range keys.length)) (p : ℕ)
    (hp : p < keys.length) : σ.getD p 0 < keys.length := by
  have hσlen : σ.length = keys.length := by
    have := hσ.length_eq
    simpa using this
  have hmem : σ.getD p 0 ∈ σ := by
    rw [List.getD_eq_getElem _ _ (by omega : p < σ.length)]
    exact List.getElem_mem _
  have := hσ.mem_iff.mp hmem
  simpa using this

lemma rank_S_getD (keys σ : List ℕ)
    (hσ : σ.Perm (List.range keys.length)) (p : ℕ)
    (hp : p < keys.length) :
    (σ.map (fun t => keys.getD t 0)).getD p 0 = keys.getD (σ.getD p 0) 0 := by
  have hσlen : σ.length = keys.length := by
    have := hσ.length_eq
    simpa using this
  have hpσ : p < σ.length := by omega
  rw [List.getD_eq_getElem _ _ (by simpa using hpσ), List.getElem_map,
    List.getD_eq_getElem _ _ hpσ]

lemma rank_cr_getD (keys σ : List ℕ)
    (hσ : σ.Perm (List.range keys.length)) (p : ℕ)
    (hp : p < keys.length) :
    (keys.map (fun k => k / U32)).getD (σ.getD p 0) 0 =
      (σ.map (fun t => keys.getD t 0)).getD p 0 / U32 := by
  have hσp := rank_sigma_lt keys σ hσ p hp
  rw [rank_S_getD keys σ hσ p hp,
    List.getD_eq_getElem _ _ (by simpa using hσp), List.getElem_map,
    List.getD_eq_getElem _ _ hσp]

lemma rank_S_perm (keys σ : List ℕ)
    (hσ : σ.Perm (List.range keys.length)) :
    (σ.map (fun t => keys.getD t 0)).Perm keys := by
  have h1 := hσ.map (fun t => keys.getD t 0)
  rw [map_getD_range keys] at h1
  exact h1

lemma rank_hi_char (keys σ : List ℕ)
    (hσ : σ.Perm (List.range keys.length))
    (hsorted : (σ.map (fun t => keys.getD t 0)).Pairwise (· ≤ ·)) :
    ∀ r p, p < keys.length →
      ((keys.map (fun k => k / U32)).getD (σ.getD p 0) 0 = r ↔
        lower_bound (keys.map (fun k => k / U32)) r ≤ p ∧
          p < upper_bound (keys.map (fun k => k / U32)) r) := by
  intro r p hp
  have hHsorted : ((σ.map (fun t => keys.getD t 0)).map
      (fun k => k / U32)).Pairwise (· ≤ ·) :=
    List.Pairwise.map _ (fun a b h => Nat.div_le_div_right h) hsorted
  have hHlen : ((σ.map (fun t => keys.getD t 0)).map
      (fun k => k / U32)).length = keys.length := by
    have := (rank_S_perm keys σ hσ).length_eq
    simpa using this
  have hcount : ∀ P : ℕ → Bool,
      ((σ.map (fun t => keys.getD t 0)).map (fun k => k / U32)).countP P =
        (keys.map (fun k => k / U32)).countP P :=
    fun P => ((rank_S_perm keys σ hσ).map (fun k => k / U32)).countP_eq P
  have hH_getD : ((σ.map (fun t => keys.getD t 0)).map
      (fun k => k / U32)).getD p 0 =
      (keys.map (fun k => k / U32)).getD (σ.getD p 0) 0 := by
    rw [rank_cr_getD keys σ hσ p hp]
    have hpS : p < (σ.map (fun t => keys.getD t 0)).length := by
      have := (rank_S_perm keys σ hσ).length_eq
      omega
    rw [List.getD_eq_getElem _ _ (by simpa using hpS), List.getElem_map,
      List.getD_eq_getElem _ _ hpS]
  have hlt_char := sorted_countP_char (fun x => decide (x < r))
    (fun x y hxy hy => by
      simp only [decide_eq_true_eq] at *
      omega)
    ((σ.map (fun t => keys.getD t 0)).map (fun k => k / U32)) hHsorted p
    (by omega)
  have hle_char := sorted_countP_char (fun x => decide (x ≤ r))
    (fun x y hxy hy => by
      simp only [decide_eq_true_eq] at *
      omega)
    ((σ.map (fun t => keys.getD t 0)).map (fun k => k / U32)) hHsorted p
    (by omega)
  rw [hH_getD, hcount] at hlt_char hle_char
  rw [lower_bound, upper_bound]
  simp only [decide_eq_true_eq] at hlt_char hle_char
  constructor
  · intro heq
    constructor
    · by_contra hc
      have := hlt_char.mpr (by omega)
      omega
    · exact hle_char.mp (by omega)
  · rintro ⟨h1, h2⟩
    have hle : (keys.map (fun k => k / U32)).getD (σ.getD p 0) 0 ≤ r :=
      hle_char.mpr h2
    have hnlt : ¬((keys.map (fun k => k / U32)).getD (σ.getD p 0) 0 < r) := by
      intro hlt
      have := hlt_char.mp hlt
      omega
    omega

lemma rank_ub_le (keys : List ℕ) (r : ℕ) :
    upper_bound (keys.map (fun k => k / U32)) r ≤ keys.length := by
  rw [upper_bound]
  have := List.countP_le_length (fun x => decide (x ≤ r))
    (l := keys.map (fun k => k / U32))
  simpa using this

lemma rank_low_mono (keys σ : List ℕ)
    (hσ : σ.Perm (List.range keys.length))
    (hsorted : (σ.map (fun t => keys.getD t 0)).Pairwise (· ≤ ·)) :
    ∀ r p q, lower_bound (keys.map (fun k => k / U32)) r ≤ p → p ≤ q →
      q < upper_bound (keys.map (fun k => k / U32)) r →
      (σ.map (fun t => keys.getD t 0)).getD p 0 % U32 ≤
        (σ.map (fun t => keys.getD t 0)).getD q 0 % U32 := by
  intro r p q h1 h2 h3
  have hq : q < keys.length := lt_of_lt_of_le h3 (rank_ub_le keys r)
  have hp : p < keys.length := by omega
  have hpr := (rank_hi_char keys σ hσ hsorted r p hp).mpr ⟨h1, by omega⟩
  have hqr := (rank_hi_char keys σ hσ hsorted r q hq).mpr ⟨by omega, h3⟩
  have hqS : q < (σ.map (fun t => keys.getD t 0)).length := by
    have := (rank_S_perm keys σ hσ).length_eq
    omega
  have hSle : (σ.map (fun t => keys.getD t 0)).getD p 0 ≤
      (σ.map (fun t => keys.getD t 0)).getD q 0 :=
    pairwise_le_getD _ hsorted p q h2 hqS
  apply mod_le_of_le_of_div_eq _ _ _ hSle
  rw [← rank_cr_getD keys σ hσ p hp, ← rank_cr_getD keys σ hσ q hq, hpr, hqr]

/-- C3: if `chain_index` (`σ`) is a permutation of `[0, n)` that sorts the
composite keys `(read_id << 32) | weight` ascending (the `sort_by_key`
contract), then for every read `r` the positions holding chains of read
`r` are exactly the contiguous range `[lower_bound r, upper_bound r)` of
`r` in the read-id-sorted `chain_reads` table, and inside that range the
low 32 weight bits are ascending. -/
theorem chain_ranking_spec (keys σ : List ℕ)
    (hσ : σ.Perm (List.range keys.length))
    (hsorted : (σ.map (fun t => keys.getD t 0)).Pairwise (· ≤ ·))
    (_hreads : (keys.map (fun k => k / U32)).Pairwise (· ≤ ·)) :
    (∀ r p, p < keys.length →
      ((keys.map (fun k => k / U32)).getD (σ.getD p 0) 0 = r ↔
        lower_bound (keys.map (fun k => k / U32)) r ≤ p ∧
          p < upper_bound (keys.map (fun k => k / U32)) r)) ∧
    (∀ r p q, lower_bound (keys.map (fun k => k / U32)) r ≤ p → p ≤ q →
      q < upper_bound (keys.map (fun k => k / U32)) r →
      keys.getD (σ.getD p 0) 0 % U32 ≤ keys.getD (σ.getD q 0) 0 % U32) := by
  refine ⟨rank_hi_char keys σ hσ hsorted, ?_⟩
  intro r p q h1 h2 h3
  have hq : q < keys.length := lt_of_lt_of_le h3 (rank_ub_le keys r)
  have hp : p < keys.length := by omega
  have := rank_low_mono keys σ hσ hsorted r p q h1 h2 h3
  rwa [rank_S_getD keys σ hσ p hp, rank_S_getD keys σ hσ q hq] at this

/-- Witness for C3: keys `[10, 2^32+5, 2^32+7]` (reads `[0, 1, 1]`),
identity permutation (already sorted), read 1, positions 1 and 2. -/
theorem chain_ranking_spec_witness :
    ([0, 1, 2] : List ℕ).Perm (List.range ([10, 2 ^ 32 + 5, 2 ^ 32 + 7] :
        List ℕ).length) ∧
    (([10, 2 ^ 32 + 5, 2 ^ 32 + 7] : List ℕ).map
        (fun k => k / U32)).getD (([0, 1, 2] : List ℕ).getD 1 0) 0 = 1 ∧
    (([10, 2 ^ 32 + 5, 2 ^ 32 + 7] : List ℕ).getD
        (([0, 1, 2] : List ℕ).getD 1 0) 0 % U32 ≤
      ([10, 2 ^ 32 + 5, 2 ^ 32 + 7] : List ℕ).getD
        (([0, 1, 2] : List ℕ).getD 2 0) 0 % U32) :=
  ⟨by decide,
    ((chain_ranking_spec [10, 2 ^ 32 + 5, 2 ^ 32 + 7] [0, 1, 2] (by decide)
        (by decide) (by decide)).1 1 1 (by decide)).mpr
      ⟨by decide, by decide⟩,
    (chain_ranking_spec [10, 2 ^ 32 + 5, 2 ^ 32 + 7] [0, 1, 2] (by decide)
        (by decide) (by decide)).2 1 1 2 (by decide) (by decide) (by decide)⟩

lemma set_one_getD_mono (flags : List ℕ) (q c : ℕ)
    (h : flags.getD c 0 = 1) : (flags.set q 1).getD c 0 = 1 := by
  have hc : c < flags.length := by
    by_contra hc
    rw [List.getD_eq_getElem?_getD, List.getElem?_eq_none (by omega)] at h
    simp at h
  by_cases hqc : q = c
  · subst hqc
    rw [List.getD_eq_getElem?_getD, List.getElem?_set_self hc]
    rfl
  · rw [List.getD_eq_getElem?_getD, List.getElem?_set_ne hqc,
      ← List.getD_eq_getElem?_getD]
    exact h

lemma set_getD_self_one (flags : List ℕ) (c : ℕ) (hc : c < flags.length) :
    (flags.set c 1).getD c 0 = 1 := by
  rw [List.getD_eq_getElem?_getD, List.getElem?_set_self hc]
  rfl

lemma innerScan_length (ranges : List (ℕ × ℕ)) (weights : List ℕ)
    (cindex : List ℕ) (opts : FilterOpts) (i : ℕ) :
    ∀ (count j : ℕ) (flags : List ℕ),
      ((innerScan ranges weights cindex opts i count j flags).2).length =
        flags.length := by
  intro count
  induction count with
  | zero => intro j flags; rfl
  | succ c ih =>
    intro j flags
    simp only [innerScan]
    split_ifs with h1 h2 h3
    · simp
    · rw [ih]
      simp
    · exact ih _ _
    · exact ih _ _

lemma innerScan_mono (ranges : List (ℕ × ℕ)) (weights : List ℕ)
    (cindex : List ℕ) (opts : FilterOpts) (i : ℕ) :
    ∀ (count j : ℕ) (flags : List ℕ) (c : ℕ), flags.getD c 0 = 1 →
      ((innerScan ranges weights cindex opts i count j flags).2).getD c 0 =
        1 := by
  intro count
  induction count with
  | zero => intro j flags c h; exact h
  | succ cnt ih =>
    intro j flags c h
    simp only [innerScan]
    split_ifs with h1 h2 h3
    · exact set_one_getD_mono flags _ c h
    · exact ih _ _ c (set_one_getD_mono flags _ c h)
    · exact ih _ _ c h
    · exact ih _ _ c h

lemma outerLoop_length (ranges : List (ℕ × ℕ)) (weights : List ℕ)
    (cindex : List ℕ) (opts : FilterOpts) (bgn : ℕ) :
    ∀ (count i n : ℕ) (flags : List ℕ),
      (outerLoop ranges weights cindex opts bgn count i n flags).length =
        flags.length := by
  intro count
  induction count with
  | zero => intro i n flags; rfl
  | succ c ih =>
    intro i n flags
    simp only [outerLoop]
    split_ifs with h1
    · rw [ih]
      simp [innerScan_length]
    · rw [ih, innerScan_length]

lemma outerLoop_mono (ranges : List (ℕ × ℕ)) (weights : List ℕ)
    (cindex : List ℕ) (opts : FilterOpts) (bgn : ℕ) :
    ∀ (count i n : ℕ) (flags : List ℕ) (c : ℕ), flags.getD c 0 = 1 →
      (outerLoop ranges weights cindex opts bgn count i n flags).getD c 0 =
        1 := by
  intro count
  induction count with
  | zero => intro i n flags c h; exact h
  | succ cnt ih =>
    intro i n flags c h
    simp only [outerLoop]
    split_ifs with h1
    · exact ih _ _ _ c (set_one_getD_mono _ _ c
        (innerScan_mono ranges weights cindex opts i n bgn flags c h))
    · exact ih _ _ _ c (innerScan_mono ranges weights cindex opts i n bgn
        flags c h)

lemma task_length (chain_reads cindex : List ℕ) (ranges : List (ℕ × ℕ))
    (weights : List ℕ) (opts : FilterOpts) (rd : ℕ) (flags : List ℕ) :
    (chain_filter_task chain_reads cindex ranges weights opts rd
      flags).length = flags.length := by
  simp only [chain_filter_task]
  rw [outerLoop_length]
  simp

lemma task_mono (chain_reads cindex : List ℕ) (ranges : List (ℕ × ℕ))
    (weights : List ℕ) (opts : FilterOpts) (rd : ℕ) (flags : List ℕ)
    (c : ℕ) (h : flags.getD c 0 = 1) :
    (chain_filter_task chain_reads cindex ranges weights opts rd
      flags).getD c 0 = 1 := by
  simp only [chain_filter_task]
  exact outerLoop_mono _ _ _ _ _ _ _ _ _ c (set_one_getD_mono flags _ c h)

lemma task_ensures (chain_reads cindex : List ℕ) (ranges : List (ℕ × ℕ))
    (weights : List ℕ) (opts : FilterOpts) (rd : ℕ) (flags : List ℕ)
    (hc : cindex.getD (lower_bound chain_reads rd) 0 < flags.length) :
    (chain_filter_task chain_reads cindex ranges weights opts rd
      flags).getD (cindex.getD (lower_bound chain_reads rd) 0) 0 = 1 := by
  simp only [chain_filter_task]
  exact outerLoop_mono _ _ _ _ _ _ _ _ _ _ (set_getD_self_one flags _ hc)

lemma foldl_tasks_mono (l : List ℕ) (f : ℕ → List ℕ → List ℕ)
    (hmono : ∀ t flags c, flags.getD c 0 = 1 → (f t flags).getD c 0 = 1)
    (c : ℕ) : ∀ flags, flags.getD c 0 = 1 →
      (l.foldl (fun fl t => f t fl) flags).getD c 0 = 1 := by
  induction l with
  | nil => intro flags h; exact h
  | cons a t ih =>
    intro flags h
    rw [List.foldl_cons]
    exact ih (f a flags) (hmono a flags c h)

lemma foldl_tasks_ensures (l : List ℕ) (f : ℕ → List ℕ → List ℕ)
    (hlen : ∀ t flags, (f t flags).length = flags.length)
    (hmono : ∀ t flags c, flags.getD c 0 = 1 → (f t flags).getD c 0 = 1)
    (t0 : ℕ) (ht0 : t0 ∈ l) (c : ℕ) (N : ℕ)
    (hens : ∀ flags : List ℕ, flags.length = N →
      (f t0 flags).getD c 0 = 1) :
    ∀ flags : List ℕ, flags.length = N →
      (l.foldl (fun fl t => f t fl) flags).getD c 0 = 1 := by
  induction l with
  | nil => intro flags _; simp at ht0
  | cons a t ih =>
    intro flags hflags
    rw [List.foldl_cons]
    rcases List.mem_cons.mp ht0 with heq | ht0'
    · subst heq
      exact foldl_tasks_mono t f hmono c _ (hens flags hflags)
    · exact ih ht0' (f a flags) ((hlen a flags).trans hflags)

/-- C6: under the `sort_by_key` contract, for every read `r` of the chunk
with at least one chain, the filter kernel leaves at least one chain of
`r` flagged kept — the first chain of the read's ranked sub-range is
marked unconditionally, later tasks only ever set flags to 1. -/
theorem filter_keeps_first_chain_spec (keys σ : List ℕ)
    (ranges : List (ℕ × ℕ)) (opts : FilterOpts)
    (read_begin read_end r : ℕ)
    (hσ : σ.Perm (List.range keys.length))
    (hsorted : (σ.map (fun t => keys.getD t 0)).Pairwise (· ≤ ·))
    (hr1 : read_begin ≤ r) (hr2 : r < read_end)
    (hne : lower_bound (keys.map (fun k => k / U32)) r <
      upper_bound (keys.map (fun k => k / U32)) r) :
    ∃ c, c < keys.length ∧ (keys.map (fun k => k / U32)).getD c 0 = r ∧
      (chain_filter_kernel read_begin read_end
        (keys.map (fun k => k / U32)) σ ranges
        (σ.map (fun t => keys.getD t 0)) opts
        (List.replicate keys.length 0)).getD c 0 = 1 := by
  have hlb_lt : lower_bound (keys.map (fun k => k / U32)) r < keys.length :=
    lt_of_lt_of_le hne (rank_ub_le keys r)
  have hc_lt : σ.getD (lower_bound (keys.map (fun k => k / U32)) r) 0 <
      keys.length := rank_sigma_lt keys σ hσ _ hlb_lt
  refine ⟨σ.getD (lower_bound (keys.map (fun k => k / U32)) r) 0, hc_lt,
    (rank_hi_char keys σ hσ hsorted r _ hlb_lt).mpr ⟨le_refl _, hne⟩, ?_⟩
  rw [chain_filter_kernel]
  apply foldl_tasks_ensures (List.range (read_end - read_begin))
    (fun t fl => chain_filter_task (keys.map (fun k => k / U32)) σ ranges
      (σ.map (fun t => keys.getD t 0)) opts (read_begin + t) fl)
    (fun t flags => task_length _ _ _ _ _ _ _)
    (fun t flags c h => task_mono _ _ _ _ _ _ _ c h)
    (r - read_begin) (List.mem_range.mpr (by omega)) _ keys.length
    ?_ _ (by simp)
  intro flags hflags
  have harith : read_begin + (r - read_begin) = r := by omega
  simp only [harith]
  exact task_ensures _ _ _ _ _ r flags (by rw [hflags]; exact hc_lt)

/-- Witness for C6: two reads, read 1 owning the two heavier chains. -/
theorem filter_keeps_first_chain_spec_witness :
    lower_bound (([10, 2 ^ 32 + 5, 2 ^ 32 + 7] : List ℕ).map
        (fun k => k / U32)) 1 <
      upper_bound (([10, 2 ^ 32 + 5, 2 ^ 32 + 7] : List ℕ).map
        (fun k => k / U32)) 1 ∧
    (∃ c, c < ([10, 2 ^ 32 + 5, 2 ^ 32 + 7] : List ℕ).length ∧
      (([10, 2 ^ 32 + 5, 2 ^ 32 + 7] : List ℕ).map
        (fun k => k / U32)).getD c 0 = 1 ∧
      (chain_filter_kernel 0 2
        (([10, 2 ^ 32 + 5, 2 ^ 32 + 7] : List ℕ).map (fun k => k / U32))
        [0, 1, 2] []
        (([0, 1, 2] : List ℕ).map
          (fun t => ([10, 2 ^ 32 + 5, 2 ^ 32 + 7] : List ℕ).getD t 0))
        sampleOpts
        (List.replicate ([10, 2 ^ 32 + 5, 2 ^ 32 + 7] :
          List ℕ).length 0)).getD c 0 = 1) :=
  ⟨by decide,
    filter_keeps_first_chain_spec [10, 2 ^ 32 + 5, 2 ^ 32 + 7] [0, 1, 2] []
      sampleOpts 0 2 1 (by decide) (by decide) (by decide) (by decide)
      (by decide)⟩

lemma innerScan_full (ranges : List (ℕ × ℕ)) (weights cindex : List ℕ)
    (opts : FilterOpts) (i : ℕ) :
    ∀ (count j : ℕ) (flags : List ℕ),
      (∀ jx, j ≤ jx → jx < j + count →
        dominanceBreak (weights.getD i 0 % U32) (weights.getD jx 0 % U32)
          opts.chain_drop_frac opts.min_seed_len = false) →
      (innerScan ranges weights cindex opts i count j flags).1 =
        j + count := by
  intro count
  induction count with
  | zero => intro j flags _; simp [innerScan]
  | succ c ih =>
    intro j flags hdom
    simp only [innerScan]
    split_ifs with h1 h2 h3
    · have hf := hdom j (le_refl j) (by omega)
      rw [hf] at h3
      exact absurd h3 Bool.false_ne_true
    · rw [ih (j + 1) _ (fun jx hx1 hx2 => hdom jx (by omega) (by omega))]
      omega
    · rw [ih (j + 1) _ (fun jx hx1 hx2 => hdom jx (by omega) (by omega))]
      omega
    · rw [ih (j + 1) _ (fun jx hx1 hx2 => hdom jx (by omega) (by omega))]
      omega

/-- C10: because the composite keys are sorted ascending, the first chain
of each read's ranked sub-range has the minimum weight of that read, any
lower-ranked chain `j` scanned against a later chain `i` of the same read
satisfies `j_w ≤ i_w` and the dominance test is false for any
`chain_drop_ratio ≤ 1`; hence every inner scan over the accepted prefix
of the read's range runs to completion (the break is unreachable). -/
theorem dominance_unreachable_spec (keys σ : List ℕ) (opts : FilterOpts)
    (r : ℕ)
    (hσ : σ.Perm (List.range keys.length))
    (hsorted : (σ.map (fun t => keys.getD t 0)).Pairwise (· ≤ ·))
    (_hdr0 : 0 < opts.chain_drop_frac)
    (hdr1 : opts.chain_drop_frac ≤ 1) :
    (∀ p, lower_bound (keys.map (fun k => k / U32)) r ≤ p →
      p < upper_bound (keys.map (fun k => k / U32)) r →
      (σ.map (fun t => keys.getD t 0)).getD
          (lower_bound (keys.map (fun k => k / U32)) r) 0 % U32 ≤
        (σ.map (fun t => keys.getD t 0)).getD p 0 % U32) ∧
    (∀ i j, lower_bound (keys.map (fun k => k / U32)) r ≤ j → j < i →
      i < upper_bound (keys.map (fun k => k / U32)) r →
      (σ.map (fun t => keys.getD t 0)).getD j 0 % U32 ≤
        (σ.map (fun t => keys.getD t 0)).getD i 0 % U32 ∧
      dominanceBreak ((σ.map (fun t => keys.getD t 0)).getD i 0 % U32)
        ((σ.map (fun t => keys.getD t 0)).getD j 0 % U32)
        opts.chain_drop_frac opts.min_seed_len = false) ∧
    (∀ (ranges : List (ℕ × ℕ)) (i n : ℕ) (flags : List ℕ),
      lower_bound (keys.map (fun k => k / U32)) r + n ≤ i →
      i < upper_bound (keys.map (fun k => k / U32)) r →
      (innerScan ranges (σ.map (fun t => keys.getD t 0)) σ opts i n
        (lower_bound (keys.map (fun k => k / U32)) r) flags).1 =
        lower_bound (keys.map (fun k => k / U32)) r + n) := by
  have hB : ∀ i j, lower_bound (keys.map (fun k => k / U32)) r ≤ j →
      j < i → i < upper_bound (keys.map (fun k => k / U32)) r →
      (σ.map (fun t => keys.getD t 0)).getD j 0 % U32 ≤
        (σ.map (fun t => keys.getD t 0)).getD i 0 % U32 ∧
      dominanceBreak ((σ.map (fun t => keys.getD t 0)).getD i 0 % U32)
        ((σ.map (fun t => keys.getD t 0)).getD j 0 % U32)
        opts.chain_drop_frac opts.min_seed_len = false := by
    intro i j hj hji hi
    have hw := rank_low_mono keys σ hσ hsorted r j i hj (le_of_lt hji) hi
    refine ⟨hw, ?_⟩
    have hcast : (((σ.map (fun t => keys.getD t 0)).getD j 0 % U32 : ℕ) :
        ℚ) ≤ (((σ.map (fun t => keys.getD t 0)).getD i 0 % U32 : ℕ) : ℚ) := by
      exact_mod_cast hw
    have hnot : ¬((((σ.map (fun t => keys.getD t 0)).getD i 0 % U32 : ℕ) :
        ℚ) < (((σ.map (fun t => keys.getD t 0)).getD j 0 % U32 : ℕ) : ℚ) *
          opts.chain_drop_frac) := by
      push_neg
      calc (((σ.map (fun t => keys.getD t 0)).getD j 0 % U32 : ℕ) : ℚ) *
            opts.chain_drop_frac
          ≤ (((σ.map (fun t => keys.getD t 0)).getD j 0 % U32 : ℕ) : ℚ) *
            1 := mul_le_mul_of_nonneg_left hdr1 (Nat.cast_nonneg _)
        _ = (((σ.map (fun t => keys.getD t 0)).getD j 0 % U32 : ℕ) : ℚ) := by
            ring
        _ ≤ (((σ.map (fun t => keys.getD t 0)).getD i 0 % U32 : ℕ) : ℚ) :=
            hcast
    unfold dominanceBreak
    rw [decide_eq_false hnot, Bool.false_and]
  refine ⟨?_, hB, ?_⟩
  · intro p h1 h2
    exact rank_low_mono keys σ hσ hsorted r _ p (le_refl _) h1 h2
  · intro ranges i n flags h1 h2
    apply innerScan_full
    intro jx hx1 hx2
    exact (hB i jx hx1 (by omega) h2).2

/-- Witness for C10 on the same two-read, three-chain configuration. -/
theorem dominance_unreachable_spec_witness :
    (0 : ℚ) < sampleOpts.chain_drop_frac ∧
    sampleOpts.chain_drop_frac ≤ 1 ∧
    (([0, 1, 2] : List ℕ).map
        (fun t => ([10, 2 ^ 32 + 5, 2 ^ 32 + 7] : List ℕ).getD t 0)).getD 1
          0 % U32 ≤
      (([0, 1, 2] : List ℕ).map
        (fun t => ([10, 2 ^ 32 + 5, 2 ^ 32 + 7] : List ℕ).getD t 0)).getD 2
          0 % U32 ∧
    dominanceBreak
      ((([0, 1, 2] : List ℕ).map
        (fun t => ([10, 2 ^ 32 + 5, 2 ^ 32 + 7] : List ℕ).getD t 0)).getD 2
          0 % U32)
      ((([0, 1, 2] : List ℕ).map
        (fun t => ([10, 2 ^ 32 + 5, 2 ^ 32 + 7] : List ℕ).getD t 0)).getD 1
          0 % U32)
      sampleOpts.chain_drop_frac sampleOpts.min_seed_len = false ∧
    (innerScan []
      (([0, 1, 2] : List ℕ).map
        (fun t => ([10, 2 ^ 32 + 5, 2 ^ 32 + 7] : List ℕ).getD t 0))
      [0, 1, 2] sampleOpts 2 1
      (lower_bound (([10, 2 ^ 32 + 5, 2 ^ 32 + 7] : List ℕ).map
        (fun k => k / U32)) 1) []).1 =
      lower_bound (([10, 2 ^ 32 + 5, 2 ^ 32 + 7] : List ℕ).map
        (fun k => k / U32)) 1 + 1 :=
  ⟨by norm_num [sampleOpts], by norm_num [sampleOpts],
    ((dominance_unreachable_spec [10, 2 ^ 32 + 5, 2 ^ 32 + 7] [0, 1, 2]
        sampleOpts 1 (by decide) (by decide) (by norm_num [sampleOpts])
        (by norm_num [sampleOpts])).2.1 2 1 (by decide) (by decide)
        (by decide)).1,
    ((dominance_unreachable_spec [10, 2 ^ 32 + 5, 2 ^ 32 + 7] [0, 1, 2]
        sampleOpts 1 (by decide) (by decide) (by norm_num [sampleOpts])
        (by norm_num [sampleOpts])).2.1 2 1 (by decide) (by decide)
        (by decide)).2,
    (dominance_unreachable_spec [10, 2 ^ 32 + 5, 2 ^ 32 + 7] [0, 1, 2]
        sampleOpts 1 (by decide) (by decide) (by norm_num [sampleOpts])
        (by norm_num [sampleOpts])).2.2 [] 2 1 [] (by decide) (by decide)⟩
